import Mathlib

/-!
A shallow embedding of the QRE (quantified regular expression) stream
engine: the expression algebra, the epsilon (acceptance-value) evaluator,
the Brzozowski-style derivative transformer, and the incremental solver,
together with theorems checking the specified behaviour of each.
-/

set_option maxHeartbeats 1000000
set_option maxRecDepth 100000

namespace QRESpec

/-- The QRE expression algebra, generic over the item type `D` and the
value type `C`.  Mirrors the Rust `enum QRE<D,C>`: predicates, extractors
and combinators are carried as function fields. -/
inductive QRE (D C : Type) where
  | Bot : QRE D C
  | Eps (c : C) : QRE D C
  | Sat (phi : D → Bool) (op : D → C) : QRE D C
  | Choice (v : List (QRE D C)) : QRE D C
  | Split (f g : QRE D C) (op : C → C → C) : QRE D C
  | Iter (i b : QRE D C) (op : C → C → C) : QRE D C
  | App (f : QRE D C) (op : C → C) : QRE D C
  | Combine (f g : QRE D C) (op : C → C → C) : QRE D C

open QRE

mutual

/-- The acceptance-value operator: the multiset (as a list) of values the
expression can yield if the stream ends now.  Push-loops of the Rust
`epsilon` become `List.foldl` over the same accumulator. -/
def epsilon {D C : Type} : QRE D C → List C
  | .Bot => []
  | .Eps c => [c]
  | .Sat _ _ => []
  | .Choice v => epsilonList v
  | .Split f g op =>
      let ef := epsilon f
      let eg := epsilon g
      ef.foldl (fun acc x => eg.foldl (fun acc y => acc ++ [op x y]) acc) []
  | .Iter i _ _ => epsilon i
  | .App f op =>
      (epsilon f).foldl (fun acc x => acc ++ [op x]) []
  | .Combine f g op =>
      let ef := epsilon f
      let eg := epsilon g
      ef.foldl (fun acc x => eg.foldl (fun acc y => acc ++ [op x y]) acc) []

/-- The `for q in v { vnew.append(epsilon(q)) }` loop of the `Choice`
case of `epsilon`. -/
def epsilonList {D C : Type} : List (QRE D C) → List C
  | [] => []
  | q :: qs => epsilon q ++ epsilonList qs

end

mutual

/-- The derivative transformer: the list of residual expressions after
consuming one item `d`.  Mirrors the Rust `deriv` case by case. -/
def deriv {D C : Type} : QRE D C → D → List (QRE D C)
  | .Bot, _ => [.Bot]
  | .Eps _, _ => [.Bot]
  | .Sat phi op, d => if phi d then [.Eps (op d)] else [.Bot]
  | .Choice v, d => derivList v d
  | .Split f g op, d =>
      let dg := deriv g d
      let df := deriv f d
      ((epsilon f).foldl
        (fun acc a => acc ++ [App (Choice dg) (fun x => op a x)]) [])
        ++ [Split (Choice df) g op]
  | .Iter i b op, d =>
      let db := deriv b d
      let di := deriv i d
      ((epsilon i).foldl
        (fun acc v => acc ++ [Iter (App (Choice db) (fun x => op v x)) b op]) [])
        ++ [Iter (Choice di) b op]
  | .App f op, d => [App (Choice (deriv f d)) op]
  | .Combine f g op, d =>
      [Combine (Choice (deriv f d)) (Choice (deriv g d)) op]

/-- The `for q in v { vnew.append(deriv(q, d)) }` loop of the `Choice`
case of `deriv`. -/
def derivList {D C : Type} : List (QRE D C) → D → List (QRE D C)
  | [], _ => []
  | q :: qs, d => deriv q d ++ derivList qs d

end

/-- The incremental solver: a working set of live residuals plus the
peak-size diagnostic counter (Rust `struct Solve`). -/
structure Solve (D C : Type) where
  state : List (QRE D C)
  max_workingset : Nat

/-- Mirrors Solve::new: the working set starts as the singleton original
query, with the peak counter at zero. -/
def Solve.new {D C : Type} (q : QRE D C) : Solve D C :=
  { state := [q], max_workingset := 0 }

/-- `Solve::update`: replace the working set by the concatenation of the
derivatives of its members, and track the peak size. -/
def Solve.update {D C : Type} (s : Solve D C) (d : D) : Solve D C :=
  let vnew := derivList s.state d
  { state := vnew
    max_workingset :=
      if vnew.length > s.max_workingset then vnew.length else s.max_workingset }

/-- `Solve::output`: flatten the epsilon images of the working set; a
defined answer exactly when that list has length one, otherwise the
`"undefined"` error. -/
def Solve.output {D C : Type} (s : Solve D C) : Except String C :=
  let cnew := epsilonList s.state
  if h : cnew.length = 1 then .ok (cnew.get ⟨0, by omega⟩)
  else .error "undefined"

/-! ### Helper lemmas about the push-loop encodings -/

/-- A loop pushing one element per iteration builds the map of the list. -/
theorem foldl_push {α β : Type} (f : α → β) (l : List α) :
    ∀ acc : List β, l.foldl (fun acc x => acc ++ [f x]) acc = acc ++ l.map f := by
  induction l with
  | nil => simp
  | cons x l ih => intro acc; simp [List.foldl_cons, ih]

/-- A nested pair of push-loops over two lists builds the pairwise product. -/
theorem foldl_push2 {α β γ : Type} (op : α → β → γ) (l1 : List α) (l2 : List β) :
    ∀ acc : List γ,
      l1.foldl (fun acc x => l2.foldl (fun acc y => acc ++ [op x y]) acc) acc
        = acc ++ l1.flatMap (fun x => l2.map (op x)) := by
  induction l1 with
  | nil => simp
  | cons x l1 ih => intro acc; simp [List.foldl_cons, foldl_push (op x) l2, ih]

/-- The flattening loop of the Choice case of epsilon, as a flatMap. -/
theorem epsilonList_eq {D C : Type} (qs : List (QRE D C)) :
    epsilonList qs = qs.flatMap epsilon := by
  induction qs with
  | nil => rfl
  | cons q qs ih => simp [epsilonList, ih]

/-- The flattening loop of the Choice case of deriv, as a flatMap. -/
theorem derivList_eq {D C : Type} (qs : List (QRE D C)) (d : D) :
    derivList qs d = qs.flatMap (fun q => deriv q d) := by
  induction qs with
  | nil => rfl
  | cons q qs ih => simp [derivList, ih]

/-- The Split clause of the derivative, with its push-loop resolved to a
map.  Shared by the Split claims and the working-set invariants. -/
theorem deriv_Split_eq {D C : Type} (f g : QRE D C) (op : C → C → C) (d : D) :
    deriv (Split f g op) d
      = (epsilon f).map (fun a => App (Choice (deriv g d)) (fun x => op a x))
        ++ [Split (Choice (deriv f d)) g op] := by
  simp [deriv, foldl_push]

/-- The Iter clause of the derivative, with its push-loop resolved to a
map.  Shared by the Iter claims and the working-set invariants. -/
theorem deriv_Iter_eq {D C : Type} (i b : QRE D C) (op : C → C → C) (d : D) :
    deriv (Iter i b op) d
      = (epsilon i).map
          (fun v => Iter (App (Choice (deriv b d)) (fun x => op v x)) b op)
        ++ [Iter (Choice (deriv i d)) b op] := by
  simp [deriv, foldl_push]

/-! ### C1, C3, C4, C6 -/

/-- C1: the derivative of Split{left,right,combine} on an item d is the
list holding, for each value a in epsilon(left), one residual App whose
inner expression is Choice over deriv(right,d) and whose transform is the
partial application of combine to a, followed by exactly one residual
Split whose left child is Choice over deriv(left,d) and whose right child
and combinator are unchanged. -/
theorem deriv_Split_spec {D C : Type} (f g : QRE D C) (op : C → C → C) (d : D) :
    deriv (Split f g op) d
      = (epsilon f).map (fun a => App (Choice (deriv g d)) (fun x => op a x))
        ++ [Split (Choice (deriv f d)) g op] :=
  deriv_Split_eq f g op d

/-- C3: the derivative of Iter{init,body,combine} on an item d is the
list holding, for each value b in epsilon(init), one residual Iter whose
init is App over Choice(deriv(body,d)) with transform the partial
application of combine to b, with body and combine unchanged, followed by
exactly one residual Iter whose init is Choice over deriv(init,d) with
body and combine unchanged. -/
theorem deriv_Iter_spec {D C : Type} (i b : QRE D C) (op : C → C → C) (d : D) :
    deriv (Iter i b op) d
      = (epsilon i).map
          (fun v => Iter (App (Choice (deriv b d)) (fun x => op v x)) b op)
        ++ [Iter (Choice (deriv i d)) b op] :=
  deriv_Iter_eq i b op d

/-- C4: the epsilon image of Split{left,right,combine} is the full
pairwise product, combining each value of the left child with each value
of the right child (not the left child with itself), duplicates
preserved. -/
theorem epsilon_Split_spec {D C : Type} (f g : QRE D C) (op : C → C → C) :
    epsilon (Split f g op)
      = (epsilon f).flatMap (fun x => (epsilon g).map (fun y => op x y)) := by
  simp [epsilon, foldl_push2]

/-- C6: the epsilon image of an Iter is exactly the epsilon image of its
init child, and consequently a freshly constructed solver holding
Iter{init = Eps{c}, body, combine} answers c before any advance. -/
theorem epsilon_Iter_spec {D C : Type} :
    (∀ (i b : QRE D C) (op : C → C → C), epsilon (Iter i b op) = epsilon i) ∧
    (∀ (c : C) (b : QRE D C) (op : C → C → C),
        (Solve.new (Iter (Eps c) b op)).output = .ok c) :=
  ⟨fun _ _ _ => rfl, fun _ _ _ => rfl⟩

/-! ### The output characterization (C2, C7) -/

/-- The solver answers a defined value exactly when the flattened epsilon
image of the working set is the singleton of that value. -/
theorem output_eq_ok_iff {D C : Type} (s : Solve D C) (c : C) :
    s.output = .ok c ↔ epsilonList s.state = [c] := by
  simp only [Solve.output]
  split
  next h =>
    obtain ⟨a, ha⟩ := List.length_eq_one.mp h
    simp [ha]
  next h =>
    constructor
    · intro hc; simp at hc
    · intro hc; rw [hc] at h; simp at h

/-- The solver fails exactly when the flattened epsilon image of the
working set does not have exactly one element. -/
theorem output_eq_error_iff {D C : Type} (s : Solve D C) :
    s.output = .error "undefined" ↔ (epsilonList s.state).length ≠ 1 := by
  simp only [Solve.output]
  split
  next h =>
    constructor
    · intro hc; simp at hc
    · intro hne; exact absurd h hne
  next h => simp [h]

/-- C2: value() returns the single element of the flattened epsilon
images of the working set when that list has exactly one element, and
otherwise fails with the single Undefined error; equal values are not
deduplicated before the count, so two branches agreeing on a value still
fail, and the zero-match and multiple-match causes both map to the same
error. -/
theorem output_spec {D C : Type} (s : Solve D C) :
    (∀ c : C, s.output = .ok c ↔ epsilonList s.state = [c]) ∧
    (s.output = .error "undefined" ↔ (epsilonList s.state).length ≠ 1) ∧
    (∀ c : C, epsilonList s.state = [c, c] → s.output = .error "undefined") := by
  refine ⟨fun c => output_eq_ok_iff s c, output_eq_error_iff s, fun c hcc => ?_⟩
  rw [output_eq_error_iff s, hcc]
  simp

/-- Witness for C2 at a concrete solver whose two branches agree on the
value 5: the answer is still Undefined. -/
theorem output_spec_witness :
    epsilonList (Solve.mk [Eps 5, Eps 5] 0 : Solve Nat Nat).state = [5, 5] ∧
    (Solve.mk [Eps 5, Eps 5] 0 : Solve Nat Nat).output = .error "undefined" :=
  ⟨rfl, (output_spec (Solve.mk [Eps 5, Eps 5] 0)).2.2 5 rfl⟩

/-- C7: the derivative of Sat{phi,op} on d is the singleton Eps{op(d)}
when phi(d) holds and the singleton Bot otherwise; hence a solver built
on that Sat answers op(d) after one advance on a satisfying d, and fails
Undefined after one advance on a non-satisfying d. -/
theorem deriv_Sat_spec {D C : Type} (phi : D → Bool) (op : D → C) (d : D) :
    (phi d = true →
       deriv (Sat phi op) d = [Eps (op d)] ∧
       ((Solve.new (Sat phi op)).update d).output = .ok (op d)) ∧
    (phi d = false →
       deriv (Sat phi op) d = [QRE.Bot] ∧
       ((Solve.new (Sat phi op)).update d).output = .error "undefined") := by
  constructor
  · intro h
    have hd : deriv (Sat phi op) d = [Eps (op d)] := by simp [deriv, h]
    refine ⟨hd, (output_eq_ok_iff _ _).mpr ?_⟩
    simp [Solve.update, Solve.new, derivList, hd, epsilonList, epsilon]
  · intro h
    have hd : deriv (Sat phi op) d = [QRE.Bot] := by simp [deriv, h]
    refine ⟨hd, (output_eq_error_iff _).mpr ?_⟩
    simp [Solve.update, Solve.new, derivList, hd, epsilonList, epsilon]

/-- Witness for C7 with the even-number predicate: item 4 is accepted
and answered, item 3 leads to Undefined. -/
theorem deriv_Sat_witness :
    ((fun n : Nat => decide (n % 2 = 0)) 4 = true ∧
       ((Solve.new (Sat (fun n : Nat => decide (n % 2 = 0)) (fun n => n))).update 4).output
         = .ok 4) ∧
    ((fun n : Nat => decide (n % 2 = 0)) 3 = false ∧
       ((Solve.new (Sat (fun n : Nat => decide (n % 2 = 0)) (fun n => n))).update 3).output
         = .error "undefined") :=
  ⟨⟨rfl, ((deriv_Sat_spec (fun n : Nat => decide (n % 2 = 0)) (fun n => n) 4).1 rfl).2⟩,
   ⟨rfl, ((deriv_Sat_spec (fun n : Nat => decide (n % 2 = 0)) (fun n => n) 3).2 rfl).2⟩⟩

/-! ### The running-sum computation (C5) -/

/-- The running-sum query of the demo: an Iter whose init and body are
both Sat with an always-true predicate and the identity extractor, folded
with addition.  The Rust demo works over f64; on the integers 0..100 and
their partial sums that arithmetic is exact, so the value domain is
modelled by Nat. -/
def runningSumQuery : QRE Nat Nat :=
  Iter (Sat (fun _ => true) (fun d => d)) (Sat (fun _ => true) (fun d => d))
    (fun x y => x + y)

/-- C5: advancing the solver for the running-sum query on the items
0,1,...,100 in order and then asking for the value yields exactly the
defined answer 5050. -/
theorem runningSum_spec :
    ((List.range 101).foldl Solve.update (Solve.new runningSumQuery)).output
      = .ok 5050 := rfl

/-! ### Purity of the value query (C8) -/

/-- An observable interaction with the solver: either feed an item or ask
for the value. -/
inductive Op (D : Type) where
  | advance (d : D)
  | value

/-- Run a list of interactions against the solver, returning the final
solver and the answers of the value queries in order.  The value query is
a read-only borrow in the source, so it is embedded as a pure function of
the solver and leaves it untouched. -/
def runOps {D C : Type} (s : Solve D C) : List (Op D) → Solve D C × List (Except String C)
  | [] => (s, [])
  | .advance d :: ops => runOps (s.update d) ops
  | .value :: ops =>
      let r := runOps s ops
      (r.1, s.output :: r.2)

/-- C8: the value query is idempotent and effect-free: two consecutive
value queries with no intervening advance return identical results, a
value query does not change the final solver state reached by the rest of
the interaction, and the answer depends only on the working set. -/
theorem output_pure_spec {D C : Type} (s : Solve D C) (ops : List (Op D)) :
    (runOps s (.value :: .value :: ops)).2
        = s.output :: s.output :: (runOps s ops).2 ∧
    (runOps s (.value :: ops)).1 = (runOps s ops).1 ∧
    (∀ t : Solve D C, t.state = s.state → t.output = s.output) := by
  refine ⟨by simp [runOps], by simp [runOps], fun t ht => ?_⟩
  obtain ⟨ts, tm⟩ := t
  obtain ⟨ss, sm⟩ := s
  simp only at ht
  cases ht
  rfl

/-- Witness for C8: a solver with a different diagnostic counter but the
same working set answers the same. -/
theorem output_pure_witness :
    (Solve.mk [Eps 1] 7 : Solve Nat Nat).state = (Solve.new (Eps 1) : Solve Nat Nat).state ∧
    (Solve.mk [Eps 1] 7 : Solve Nat Nat).output = (Solve.new (Eps 1) : Solve Nat Nat).output :=
  ⟨rfl, (output_pure_spec (Solve.new (Eps 1) : Solve Nat Nat) []).2.2 (Solve.mk [Eps 1] 7) rfl⟩

/-! ### Bounded growth for Choice/Split/Iter-free queries (C9) -/

/-- Recognizes queries built only from Bot, Eps, Sat, App and Combine. -/
def noChoiceSplitIter {D C : Type} : QRE D C → Bool
  | .Bot => true
  | .Eps _ => true
  | .Sat _ _ => true
  | .Choice _ => false
  | .Split _ _ _ => false
  | .Iter _ _ _ => false
  | .App f _ => noChoiceSplitIter f
  | .Combine f g _ => noChoiceSplitIter f && noChoiceSplitIter g

/-- Deterministic expressions: every derivative is a singleton of another
deterministic expression.  Closed under the singleton Choice wrappers the
derivative introduces. -/
inductive Det {D C : Type} : QRE D C → Prop where
  | bot : Det .Bot
  | eps (c : C) : Det (.Eps c)
  | sat (phi : D → Bool) (op : D → C) : Det (.Sat phi op)
  | app {f : QRE D C} (op : C → C) : Det f → Det (.App f op)
  | comb {f g : QRE D C} (op : C → C → C) : Det f → Det g → Det (.Combine f g op)
  | choice1 {q : QRE D C} : Det q → Det (.Choice [q])

/-- The derivative of a deterministic expression is a singleton of a
deterministic expression. -/
theorem det_deriv {D C : Type} (d : D) {q : QRE D C} (hq : Det q) :
    ∃ q2, deriv q d = [q2] ∧ Det q2 := by
  induction hq with
  | bot => exact ⟨.Bot, rfl, .bot⟩
  | eps c => exact ⟨.Bot, rfl, .bot⟩
  | sat phi op =>
      cases h : phi d with
      | true => exact ⟨.Eps (op d), by simp [deriv, h], .eps _⟩
      | false => exact ⟨.Bot, by simp [deriv, h], .bot⟩
  | app op hf ih =>
      obtain ⟨f2, hf2, hdet⟩ := ih
      exact ⟨.App (.Choice [f2]) op, by simp [deriv, hf2], .app op (.choice1 hdet)⟩
  | comb op hf hg ihf ihg =>
      obtain ⟨f2, hf2, hdf⟩ := ihf
      obtain ⟨g2, hg2, hdg⟩ := ihg
      exact ⟨.Combine (.Choice [f2]) (.Choice [g2]) op, by simp [deriv, hf2, hg2],
        .comb op (.choice1 hdf) (.choice1 hdg)⟩
  | choice1 hq ih =>
      obtain ⟨q2, hq2, hdet⟩ := ih
      exact ⟨q2, by simp [deriv, derivList, hq2], hdet⟩

/-- Queries free of Choice, Split and Iter are deterministic. -/
theorem noChoiceSplitIter_det {D C : Type} : ∀ (q : QRE D C),
    noChoiceSplitIter q = true → Det q
  | .Bot, _ => .bot
  | .Eps c, _ => .eps c
  | .Sat phi op, _ => .sat phi op
  | .App f op, h =>
      .app op (noChoiceSplitIter_det f (by simpa [noChoiceSplitIter] using h))
  | .Combine f g op, h => by
      simp only [noChoiceSplitIter, Bool.and_eq_true] at h
      exact .comb op (noChoiceSplitIter_det f h.1) (noChoiceSplitIter_det g h.2)
  | .Choice _, h => by simp [noChoiceSplitIter] at h
  | .Split _ _ _, h => by simp [noChoiceSplitIter] at h
  | .Iter _ _ _, h => by simp [noChoiceSplitIter] at h

/-- On a working set of deterministic expressions, the derivative step
preserves both the set size and determinism. -/
theorem det_derivList {D C : Type} (d : D) (qs : List (QRE D C))
    (h : ∀ q ∈ qs, Det q) :
    (derivList qs d).length = qs.length ∧ ∀ q2 ∈ derivList qs d, Det q2 := by
  induction qs with
  | nil => simp [derivList]
  | cons q qs ih =>
      obtain ⟨q2, hq2, hdet⟩ := det_deriv d (h q (by simp))
      have hrest := ih (fun p hp => h p (by simp [hp]))
      constructor
      · simp [derivList, hq2, hrest.1]
      · intro p hp
        simp only [derivList, hq2, List.mem_append, List.mem_singleton] at hp
        rcases hp with hp | hp
        · rw [hp]; exact hdet
        · exact hrest.2 p hp

/-- The deterministic-working-set invariant carried through any stream. -/
theorem det_foldl {D C : Type} (ds : List D) (s : Solve D C)
    (h : ∀ q ∈ s.state, Det q) :
    (ds.foldl Solve.update s).state.length = s.state.length ∧
      ∀ q ∈ (ds.foldl Solve.update s).state, Det q := by
  induction ds generalizing s with
  | nil => exact ⟨rfl, h⟩
  | cons d ds ih =>
      have hstep := det_derivList d s.state h
      have hupd : (s.update d).state = derivList s.state d := rfl
      have hrec := ih (s.update d) (by rw [hupd]; exact hstep.2)
      rw [List.foldl_cons]
      exact ⟨by rw [hrec.1, hupd, hstep.1], hrec.2⟩

/-- C9: for a query built only from Bot, Eps, Sat, App and Combine, the
working set of the solver never exceeds two elements after any number of
advance calls (it in fact stays a singleton). -/
theorem bounded_workingset_spec {D C : Type} (q : QRE D C)
    (h : noChoiceSplitIter q = true) (ds : List D) :
    ((ds.foldl Solve.update (Solve.new q)).state).length ≤ 2 := by
  have hdet : ∀ p ∈ (Solve.new q).state, Det p := by
    intro p hp
    simp only [Solve.new, List.mem_singleton] at hp
    rw [hp]
    exact noChoiceSplitIter_det q h
  have hlen := (det_foldl ds (Solve.new q) hdet).1
  rw [hlen]
  simp [Solve.new]

/-- Witness for C9: an App-over-Sat chain on three concrete items. -/
theorem bounded_workingset_witness :
    noChoiceSplitIter
        (App (Sat (fun n : Nat => decide (n % 2 = 0)) (fun n => n)) (fun x => x + 1)) = true ∧
    ((([3, 4, 5] : List Nat).foldl Solve.update
        (Solve.new (App (Sat (fun n : Nat => decide (n % 2 = 0)) (fun n => n))
          (fun x => x + 1)))).state).length ≤ 2 :=
  ⟨rfl,
    bounded_workingset_spec
      (App (Sat (fun n : Nat => decide (n % 2 = 0)) (fun n => n)) (fun x => x + 1))
      rfl [3, 4, 5]⟩

/-! ### Working sets never shrink for queries without empty Choice (C10) -/

mutual

/-- Recognizes expressions whose tree has no Choice node with an empty
alternatives list. -/
def noEmptyChoice {D C : Type} : QRE D C → Bool
  | .Bot => true
  | .Eps _ => true
  | .Sat _ _ => true
  | .Choice v => !v.isEmpty && noEmptyChoiceList v
  | .Split f g _ => noEmptyChoice f && noEmptyChoice g
  | .Iter i b _ => noEmptyChoice i && noEmptyChoice b
  | .App f _ => noEmptyChoice f
  | .Combine f g _ => noEmptyChoice f && noEmptyChoice g

/-- noEmptyChoice on every member of a list. -/
def noEmptyChoiceList {D C : Type} : List (QRE D C) → Bool
  | [] => true
  | q :: qs => noEmptyChoice q && noEmptyChoiceList qs

end

/-- noEmptyChoiceList distributes over append. -/
theorem noEmptyChoiceList_append {D C : Type} (xs ys : List (QRE D C)) :
    noEmptyChoiceList (xs ++ ys) = (noEmptyChoiceList xs && noEmptyChoiceList ys) := by
  induction xs with
  | nil => simp [noEmptyChoiceList]
  | cons q xs ih => simp [noEmptyChoiceList, ih, Bool.and_assoc]

/-- noEmptyChoiceList holds on a mapped list when it holds pointwise. -/
theorem noEmptyChoiceList_map {α D C : Type} (F : α → QRE D C) (l : List α)
    (h : ∀ x ∈ l, noEmptyChoice (F x) = true) :
    noEmptyChoiceList (l.map F) = true := by
  induction l with
  | nil => rfl
  | cons x l ih =>
      simp only [List.map_cons, noEmptyChoiceList, Bool.and_eq_true]
      exact ⟨h x (by simp), ih (fun y hy => h y (by simp [hy]))⟩

mutual

/-- The derivative of an expression without empty Choice nodes is a
nonempty list of expressions without empty Choice nodes. -/
theorem nec_deriv {D C : Type} (d : D) : ∀ (q : QRE D C), noEmptyChoice q = true →
    deriv q d ≠ [] ∧ noEmptyChoiceList (deriv q d) = true
  | .Bot, _ => by simp [deriv, noEmptyChoiceList, noEmptyChoice]
  | .Eps _, _ => by simp [deriv, noEmptyChoiceList, noEmptyChoice]
  | .Sat phi op, _ => by
      cases h : phi d <;> simp [deriv, h, noEmptyChoiceList, noEmptyChoice]
  | .Choice v, h => by
      simp only [noEmptyChoice, Bool.and_eq_true] at h
      have hl := nec_derivList d v h.2
      have hv : v ≠ [] := by
        intro he
        rw [he] at h
        simp [List.isEmpty] at h
      constructor
      · intro hnil
        simp only [deriv] at hnil
        have hle := hl.1
        rw [hnil] at hle
        simp at hle
        exact hv hle
      · simpa [deriv] using hl.2
  | .Split f g op, h => by
      simp only [noEmptyChoice, Bool.and_eq_true] at h
      have hf := nec_deriv d f h.1
      have hg := nec_deriv d g h.2
      rw [deriv_Split_eq]
      refine ⟨by simp, ?_⟩
      rw [noEmptyChoiceList_append]
      simp only [Bool.and_eq_true]
      constructor
      · refine noEmptyChoiceList_map _ _ (fun a _ => ?_)
        simp [noEmptyChoice, hg.1, hg.2]
      · simp [noEmptyChoiceList, noEmptyChoice, hf.1, hf.2, h.2]
  | .Iter i b op, h => by
      simp only [noEmptyChoice, Bool.and_eq_true] at h
      have hi := nec_deriv d i h.1
      have hb := nec_deriv d b h.2
      rw [deriv_Iter_eq]
      refine ⟨by simp, ?_⟩
      rw [noEmptyChoiceList_append]
      simp only [Bool.and_eq_true]
      constructor
      · refine noEmptyChoiceList_map _ _ (fun a _ => ?_)
        simp [noEmptyChoice, hb.1, hb.2, h.2]
      · simp [noEmptyChoiceList, noEmptyChoice, hi.1, hi.2, h.2]
  | .App f op, h => by
      have hf := nec_deriv d f (by simpa [noEmptyChoice] using h)
      simp [deriv, noEmptyChoiceList, noEmptyChoice, hf.1, hf.2]
  | .Combine f g op, h => by
      simp only [noEmptyChoice, Bool.and_eq_true] at h
      have hf := nec_deriv d f h.1
      have hg := nec_deriv d g h.2
      simp [deriv, noEmptyChoiceList, noEmptyChoice, hf.1, hf.2, hg.1, hg.2]

/-- One derivative step on a working set without empty Choice nodes never
shrinks the set and preserves the property. -/
theorem nec_derivList {D C : Type} (d : D) : ∀ (qs : List (QRE D C)),
    noEmptyChoiceList qs = true →
    qs.length ≤ (derivList qs d).length ∧ noEmptyChoiceList (derivList qs d) = true
  | [], _ => by simp [derivList, noEmptyChoiceList]
  | q :: qs, h => by
      simp only [noEmptyChoiceList, Bool.and_eq_true] at h
      have h1 := nec_deriv d q h.1
      have h2 := nec_derivList d qs h.2
      constructor
      · simp only [derivList, List.length_append, List.length_cons]
        have hq : 1 ≤ (deriv q d).length := by
          cases hd : deriv q d with
          | nil => exact absurd hd h1.1
          | cons a l => simp
        omega
      · show noEmptyChoiceList (deriv q d ++ derivList qs d) = true
        rw [noEmptyChoiceList_append, h1.2, h2.2]
        rfl

end

/-- The no-empty-Choice invariant and the monotone working-set length,
carried through any stream. -/
theorem nec_foldl {D C : Type} (ds : List D) (s : Solve D C)
    (h : noEmptyChoiceList s.state = true) :
    noEmptyChoiceList (ds.foldl Solve.update s).state = true ∧
      s.state.length ≤ (ds.foldl Solve.update s).state.length := by
  induction ds generalizing s with
  | nil => exact ⟨h, Nat.le_refl _⟩
  | cons d ds ih =>
      have hstep := nec_derivList d s.state h
      have hupd : (s.update d).state = derivList s.state d := rfl
      have hrec := ih (s.update d) (by rw [hupd]; exact hstep.2)
      rw [List.foldl_cons]
      exact ⟨hrec.1, Nat.le_trans (hupd ▸ hstep.1) hrec.2⟩

/-- C10: for every query whose tree has no Choice node with an empty
alternatives list, the derivative returns a nonempty list of residuals
each again free of empty Choice nodes, and consequently the working set
of a solver for such a query never becomes empty and never shrinks on an
advance. -/
theorem workingset_nonempty_spec {D C : Type} (q : QRE D C)
    (h : noEmptyChoice q = true) :
    (∀ d : D, deriv q d ≠ [] ∧ noEmptyChoiceList (deriv q d) = true) ∧
    (∀ (ds : List D) (d : D),
        1 ≤ ((ds.foldl Solve.update (Solve.new q)).state).length ∧
        ((ds.foldl Solve.update (Solve.new q)).state).length ≤
          (((ds.foldl Solve.update (Solve.new q)).update d).state).length) := by
  have hstate : noEmptyChoiceList (Solve.new q).state = true := by
    simp [Solve.new, noEmptyChoiceList, h]
  refine ⟨fun d => nec_deriv d q h, fun ds d => ?_⟩
  have hfold := nec_foldl ds (Solve.new q) hstate
  have hone : (Solve.new q).state.length = 1 := rfl
  refine ⟨by rw [← hone]; exact hfold.2, ?_⟩
  have hstep := nec_derivList d (ds.foldl Solve.update (Solve.new q)).state hfold.1
  exact hstep.1

/-- Witness for C10: a two-way Choice query on two concrete items. -/
theorem workingset_nonempty_witness :
    noEmptyChoice (Choice [Eps 1, QRE.Bot] : QRE Nat Nat) = true ∧
    deriv (Choice [Eps 1, QRE.Bot] : QRE Nat Nat) 0 ≠ [] ∧
    1 ≤ ((([0, 1] : List Nat).foldl Solve.update
        (Solve.new (Choice [Eps 1, QRE.Bot] : QRE Nat Nat))).state).length :=
  ⟨rfl,
    ((workingset_nonempty_spec (Choice [Eps 1, QRE.Bot]) rfl).1 0).1,
    ((workingset_nonempty_spec (Choice [Eps 1, QRE.Bot]) rfl).2 [0, 1] 2).1⟩

end QRESpec
